import Mathlib

/-!
Verification of the filter-parsing and CSS/JSON generation core of
the uBlock-to-Stylus converter (src/ublocktoCSS_pro.py), as a shallow
embedding over lists of characters and strings.

The embedding models raw input as a list of lines, each a list of
characters; the GUI shell feeds the parser the result of splitting the
pasted text into lines, which is outside the core. Python string
operations used by the core are transcribed as executable functions on
lists of characters.
-/

/-- The whitespace test used by Python str.strip / rstrip (ASCII part). -/
def isPySpace (c : Char) : Bool :=
  c == ' ' || c == '\t' || c == '\n' || c == '\r' || c == '\x0b' || c == '\x0c'

/-- Python str.lstrip on a list of characters. -/
def lstrip (s : List Char) : List Char := s.dropWhile isPySpace

/-- Python str.rstrip on a list of characters. -/
def rstrip (s : List Char) : List Char := (s.reverse.dropWhile isPySpace).reverse

/-- Python str.strip on a list of characters. -/
def strip (s : List Char) : List Char := rstrip (lstrip s)

/-- Python substring membership test, `pat in s`. -/
def containsSub (pat : List Char) : List Char → Bool
  | [] => pat.isEmpty
  | c :: rest => pat.isPrefixOf (c :: rest) || containsSub pat rest

/-- Python `s.split(pat, 1)` for a non-empty pattern: the part before the
first occurrence of `pat` and the part after it, or `none` when `pat`
does not occur in `s`. -/
def splitFirst (pat : List Char) : List Char → Option (List Char × List Char)
  | [] => if pat.isEmpty then some ([], []) else none
  | c :: rest =>
    if pat.isPrefixOf (c :: rest) then some ([], (c :: rest).drop pat.length)
    else
      match splitFirst pat rest with
      | some (a, b) => some (c :: a, b)
      | none => none

/-- Python `s.split(sep)` for a single-character separator. -/
def splitOnChar (sep : Char) : List Char → List (List Char)
  | [] => [[]]
  | c :: rest =>
    if c = sep then [] :: splitOnChar sep rest
    else
      match splitOnChar sep rest with
      | [] => [[c]]
      | p :: ps => (c :: p) :: ps

/-- Append a value to the entry of `k` in an insertion-ordered association
list of lists, creating the entry at the end when `k` is absent. This is
Python `defaultdict(list)[k].append(v)` under insertion-ordered dicts. -/
def appendAt {K V : Type} [DecidableEq K] : List (K × List V) → K → V → List (K × List V)
  | [], k, v => [(k, [v])]
  | (a, vs) :: rest, k, v =>
    if a = k then (a, vs ++ [v]) :: rest else (a, vs) :: appendAt rest k v

/-- Read the entry of `k` in an association list of lists (empty when absent). -/
def lookupG {K V : Type} [DecidableEq K] : List (K × List V) → K → List V
  | [], _ => []
  | (a, vs) :: rest, k => if a = k then vs else lookupG rest k

/-- Keep the first occurrence of each element, preserving order: the
`seen`-set loop of `dedupe_rules` before sorting. -/
def dedupeFirst {α : Type} [DecidableEq α] (xs : List α) : List α :=
  xs.foldl (fun acc x => if x ∈ acc then acc else acc ++ [x]) []

/-- The literal `:style(` searched for by the parser. -/
def styleLit : List Char := ":style(".toList

/-- The suffix part of the regex `^(.+?):style\((.+)\)$`: matches `(.+)\)$`,
returning the text captured by the greedy `(.+)` group, i.e. everything up
to a final closing parenthesis, requiring at least one captured character. -/
def tailMatch : List Char → Option (List Char)
  | [] => none
  | [_] => none
  | c :: d :: rest =>
    match tailMatch (d :: rest) with
    | some b => some (c :: b)
    | none => if d :: rest = [')'] then some [c] else none

/-- The scan performed by matching the full regex against `s`: the
non-greedy `(.+?)` group grows one character at a time; at each position
the engine tries the literal `:style(` followed by `(.+)\)$`, and on
failure extends the group (backtracking). Returns the two captured
groups. `acc` is the text consumed into the first group so far. -/
def styleLoop (acc : List Char) : List Char → Option (List Char × List Char)
  | [] => none
  | c :: rest =>
    if styleLit.isPrefixOf rest then
      match tailMatch (rest.drop styleLit.length) with
      | some g2 => some (acc ++ [c], g2)
      | none => styleLoop (acc ++ [c]) rest
    else styleLoop (acc ++ [c]) rest

/-- The declaration used for plain hide rules. -/
def dnDecl : String := "display: none !important"

/-- The declaration used for plain hide rules, as characters. -/
def dnDeclC : List Char := dnDecl.toList

/-- The `:style()` handling of `parse_filters` applied to a non-empty
trimmed selector part: `none` means the line is invalid with reason
"Invalid :style() syntax". -/
def selectorRule (selector_part : List Char) : Option (List Char × List Char) :=
  if containsSub styleLit selector_part then
    match styleLoop [] selector_part with
    | some (g1, g2) => some (strip g1, strip g2)
    | none => none
  else some (selector_part, dnDeclC)

/-- The classification of one raw input line by the loop body of
`parse_filters`. -/
inductive LineKind where
  | blank : LineKind
  | skip : String → LineKind
  | invalid : String → LineKind
  | rule : List Char → (List Char × List Char) → LineKind
deriving DecidableEq

/-- One pass of the `parse_filters` loop body over a single raw line,
transcribed branch for branch from the Python source. -/
def classifyLine (line0 : List Char) : LineKind :=
  let line := strip line0
  if line = [] then .blank
  else if ['!'].isPrefixOf line then .blank
  else if ['|', '|'].isPrefixOf line || ['@', '@'].isPrefixOf line
      || ['/'].isPrefixOf line then .skip "Network filter"
  else
    match splitFirst ['#', '#'] line with
    | some (pre, post) =>
      if '$' ∈ pre then .skip "Network filter with options"
      else
        let selector_part := strip post
        if selector_part = [] then .invalid "Empty selector"
        else
          match selectorRule selector_part with
          | some r => .rule (strip pre) r
          | none => .invalid "Invalid :style() syntax"
    | none =>
      if '$' ∈ line || ['|'].isPrefixOf line then .skip "Network filter"
      else .invalid "Missing ## separator"

/-- Does the classification contribute a rule? -/
def isRuleKind : LineKind → Bool
  | .rule _ _ => true
  | _ => false

/-- Is the classification a silently ignored line? -/
def isBlankKind : LineKind → Bool
  | .blank => true
  | _ => false

/-- Is the classification invalid? -/
def isInvalidKind : LineKind → Bool
  | .invalid _ => true
  | _ => false

/-- Is the classification skipped? -/
def isSkipKind : LineKind → Bool
  | .skip _ => true
  | _ => false

/-- The structured result of `parse_filters`: insertion-ordered domain map,
global rules, invalid lines and skipped lines (with 1-based line numbers
and the trimmed line text, as recorded by the Python code). -/
structure ParseResult where
  domainMap : List (List Char × List (List Char × List Char))
  globals : List (List Char × List Char)
  invalid : List (Nat × List Char × String)
  skipped : List (Nat × List Char × String)
deriving DecidableEq

/-- Apply the classification of line `line` (numbered `n`) to the running
parse state, exactly as the loop body of `parse_filters` updates its four
accumulators. -/
def applyLine (st : ParseResult) (n : Nat) (line : List Char) : ParseResult :=
  match classifyLine line with
  | .blank => st
  | .skip reason => ⟨st.domainMap, st.globals, st.invalid, st.skipped ++ [(n, strip line, reason)]⟩
  | .invalid reason => ⟨st.domainMap, st.globals, st.invalid ++ [(n, strip line, reason)], st.skipped⟩
  | .rule dp r =>
    if dp = [] then ⟨st.domainMap, st.globals ++ [r], st.invalid, st.skipped⟩
    else
      ⟨(splitOnChar ',' dp).foldl (fun m d => appendAt m (strip d) r) st.domainMap,
        st.globals, st.invalid, st.skipped⟩

/-- Run the `parse_filters` loop from line number `n` in state `st`. -/
def parseFrom (st : ParseResult) (n : Nat) : List (List Char) → ParseResult
  | [] => st
  | l :: ls => parseFrom (applyLine st n l) (n + 1) ls

/-- `parse_filters` on a list of raw input lines. -/
def parse_filters (lines : List (List Char)) : ParseResult :=
  parseFrom ⟨[], [], [], []⟩ 1 lines

/-- The character filter of `sanitize_filename`: letters, digits, space,
dot, underscore, hyphen. -/
def keepChar (c : Char) : Bool :=
  c.isAlpha || c.isDigit || c == ' ' || c == '.' || c == '_' || c == '-'

/-- The pattern `www.` removed by `sanitize_filename`. -/
def wwwPat : List Char := "www.".toList

/-- The pattern `https://` removed by `sanitize_filename`. -/
def httpsPat : List Char := "https://".toList

/-- The pattern `http://` removed by `sanitize_filename`. -/
def httpPat : List Char := "http://".toList

/-- Python replace of `pat` by the empty string: remove every non-overlapping occurrence
of `pat`, scanning left to right. -/
def removeAll (pat : List Char) (s : List Char) : List Char :=
  match s with
  | [] => []
  | c :: rest =>
    if h : ¬pat.isEmpty ∧ pat.isPrefixOf (c :: rest) then
      removeAll pat ((c :: rest).drop pat.length)
    else c :: removeAll pat rest
termination_by s.length
decreasing_by
  · simp only [List.length_drop, List.length_cons]
    have hp : 0 < pat.length := by
      cases pat with
      | nil => simp [List.isEmpty] at h
      | cons a l => simp
    omega
  · simp only [List.length_cons]
    omega

/-- `sanitize_filename` from the source: strip the three URL substrings
with Python `replace` (all occurrences), keep only safe characters,
strip trailing whitespace. -/
def sanitize_filename (filename : List Char) : List Char :=
  rstrip ((removeAll httpPat (removeAll httpsPat (removeAll wwwPat filename))).filter keepChar)

/-- Remove only the first occurrence of `pat` (for comparison against the
claim that `sanitize_filename` removes first occurrences only). -/
def removeFirst (pat : List Char) : List Char → List Char
  | [] => []
  | c :: rest =>
    if ¬pat.isEmpty ∧ pat.isPrefixOf (c :: rest) then (c :: rest).drop pat.length
    else c :: removeFirst pat rest

/-- Modelled from the claim wording for the sanitizer: remove only the
first occurrence of each URL substring, then filter characters, then
strip trailing whitespace. Used to exhibit where the claim diverges from
the code. -/
def sanitizeClaimC5 (filename : List Char) : List Char :=
  rstrip ((removeFirst httpPat (removeFirst httpsPat (removeFirst wwwPat filename))).filter keepChar)

/-- Group rules by their CSS declaration text, preserving first-seen group
order and in-group selector order: the `defaultdict`-building loops of
`generate_usercss` and `create_stylus_style_entry`. -/
def cssGroups (rules : List (String × String)) : List (String × List String) :=
  rules.foldl (fun m r => appendAt m r.2 r.1) []

/-- Render one declaration group as a CSS block, as the f-string in the
Python source does. -/
def blockText (g : String × List String) : String :=
  "    " ++ String.intercalate ",\n    " g.2 ++ " \x7b\n        " ++ g.1 ++ ";\n    \x7d"

/-- Join the rendered blocks with blank lines. -/
def renderBlocks (groups : List (String × List String)) : String :=
  String.intercalate "\n\n" (groups.map blockText)

/-- The fixed UserCSS header emitted by `generate_usercss`. -/
def usercssHeader (name : String) : String :=
  "/* ==UserStyle==\n@name           " ++ name ++
  " - Cleanup\n@namespace      ublock-to-stylus-converter\n@version        1.0.0\n@description    Converted from uBlock Origin cosmetic filters\n@author         uBlock Converter\n@license        MIT\n==/UserStyle== */\n\n"

/-- The `@-moz-document` wrapper used for non-global styles. -/
def mozWrap (name body : String) : String :=
  "@-moz-document domain(\"" ++ name ++ "\") \x7b\n" ++ body ++ "\n\x7d"

/-- `generate_usercss` from the source. -/
def generate_usercss (name : String) (rules : List (String × String)) (is_global : Bool) : String :=
  usercssHeader name ++
    (if is_global then renderBlocks (cssGroups rules)
     else mozWrap name (renderBlocks (cssGroups rules)))

/-- The two-key comparator of `dedupe_rules`: the Python sort key is the
pair `(declaration != "display: none !important", selector)` compared
lexicographically, booleans with False before True. -/
def ruleLe (a b : String × String) : Prop :=
  (a.2 = dnDecl ∧ b.2 ≠ dnDecl) ∨ ((a.2 = dnDecl ↔ b.2 = dnDecl) ∧ a.1 ≤ b.1)

instance : DecidableRel ruleLe := fun a b => by unfold ruleLe; infer_instance

instance : IsTotal (String × String) ruleLe := by
  constructor
  intro a b
  by_cases ha : a.2 = dnDecl <;> by_cases hb : b.2 = dnDecl
  · rcases le_total a.1 b.1 with h | h
    · exact Or.inl (Or.inr ⟨by simp [ha, hb], h⟩)
    · exact Or.inr (Or.inr ⟨by simp [ha, hb], h⟩)
  · exact Or.inl (Or.inl ⟨ha, hb⟩)
  · exact Or.inr (Or.inl ⟨hb, ha⟩)
  · rcases le_total a.1 b.1 with h | h
    · exact Or.inl (Or.inr ⟨by simp [ha, hb], h⟩)
    · exact Or.inr (Or.inr ⟨by simp [ha, hb], h⟩)

instance : IsTrans (String × String) ruleLe := by
  constructor
  intro a b c hab hbc
  rcases hab with ⟨ha, hb⟩ | ⟨hab, sab⟩ <;> rcases hbc with ⟨hb2, hc⟩ | ⟨hbc, sbc⟩
  · exact absurd hb2 hb
  · exact Or.inl ⟨ha, fun hc => hb (hbc.mpr hc)⟩
  · exact Or.inl ⟨hab.mpr hb2, hc⟩
  · exact Or.inr ⟨hab.trans hbc, le_trans sab sbc⟩

/-- `dedupe_rules` from the source: drop exact duplicates keeping first
occurrences, then stable-sort by the two-key comparator (Python `sorted`
is a stable sort; insertion sort over a total preorder is stable). -/
def dedupe_rules (rules : List (String × String)) : List (String × String) :=
  List.insertionSort ruleLe (dedupeFirst rules)

/-- The fixed settings object emitted first by `generate_stylus_json`. -/
structure StylusSettings where
  disableAll : Bool
  exposeIframes : Bool
  newStyleAsUsercss : Bool
  openEditInWindow : Bool
  showBadge : Bool
  styleViaASS : Bool
  urlInstaller : Bool
  syncEnabled : String
  updateInterval : Nat
  orderMain : List String
  orderPrio : List String
deriving DecidableEq

/-- The literal settings values of the Python `settings_obj`. -/
def settingsObj : StylusSettings :=
  ⟨false, false, false, false, true, false, true, "none", 24, [], []⟩

/-- One CSS section of a Stylus style entry; `domains = none` models the
absence of the "domains" key. -/
structure StyleSection where
  code : String
  domains : Option (List String)
deriving DecidableEq

/-- One Stylus style entry, with the fields built by
`create_stylus_style_entry`. `uid` stands for the generated `_id` and
`rev` for `_rev`. -/
structure StyleEntry where
  enabled : Bool
  installDate : Nat
  name : String
  sections : List StyleSection
  updateDate : Nat
  uid : String
  rev : Nat
  id : Nat
deriving DecidableEq

/-- An element of the exported JSON array. -/
inductive StylusItem where
  | settings : StylusSettings → StylusItem
  | style : StyleEntry → StylusItem
deriving DecidableEq

/-- `create_stylus_style_entry` from the source. The wall-clock reading
`time.time()*1000` and the generated uuid are nondeterministic inputs of
the Python code and are passed in as the parameters `now` and `uid`. -/
def create_stylus_style_entry (now : Nat) (uid : String) (name : String)
    (rules : List (String × String)) (domains : Option (List String))
    (style_id : Nat) (is_global : Bool) : StyleEntry :=
  let all_rules := renderBlocks (cssGroups rules)
  let css_code :=
    if is_global then "/* Rules converted from uBlock Origin */\n\n" ++ all_rules
    else "/* Rules for " ++ name ++ " */\n\n" ++ all_rules
  let doms : Option (List String) :=
    match domains, is_global with
    | some ds, false => if ds.isEmpty then none else some ds
    | _, _ => none
  ⟨true, now, name, [⟨css_code, doms⟩], now, uid, now, style_id⟩

/-- `enumerate` with a starting index. -/
def enumFromN {α : Type} (n : Nat) : List α → List (Nat × α)
  | [] => []
  | x :: xs => (n, x) :: enumFromN (n + 1) xs

/-- `generate_stylus_json` from the source, with the wall clock passed as
`now` (so `base_id = now % 1000000`) and uuid generation as `uidGen`. -/
def generate_stylus_json (now : Nat) (uidGen : Nat → String)
    (domain_map : List (String × List (String × String)))
    (global_selectors : List (String × String)) : List StylusItem :=
  let base_id := now % 1000000
  let domainEntries := (enumFromN 0 domain_map).map (fun p =>
    StylusItem.style (create_stylus_style_entry now (uidGen p.1) p.2.1
      (dedupe_rules p.2.2)
      (some (if p.2.1.startsWith "www." then [p.2.1] else [p.2.1, "www." ++ p.2.1]))
      (base_id + p.1) false))
  let globalEntries :=
    if global_selectors.isEmpty then []
    else [StylusItem.style (create_stylus_style_entry now (uidGen domain_map.length)
      "Global Rules - uBlock Converted" (dedupe_rules global_selectors) none
      (base_id + domain_map.length) true)]
  StylusItem.settings settingsObj :: (domainEntries ++ globalEntries)

/-- The style name of an exported item, if it is a style entry. -/
def itemName : StylusItem → Option String
  | .settings _ => none
  | .style e => some e.name

/-- Is an exported item a style entry? -/
def isStyleItem : StylusItem → Bool
  | .style _ => true
  | .settings _ => false

/-- Total number of occurrences of a selector across all CSS groups. -/
def countOcc (sel : String) (groups : List (String × List String)) : Nat :=
  (groups.map (fun g => g.2.count sel)).sum

/-! ### Facts about trimming -/

theorem dropWhile_head_not {p : Char → Bool} :
    ∀ (l : List Char) (c : Char), (l.dropWhile p).head? = some c → p c = false := by
  intro l
  induction l with
  | nil => intro c h; simp [List.dropWhile] at h
  | cons a l ih =>
    intro c h
    rw [List.dropWhile_cons] at h
    by_cases hp : p a
    · rw [if_pos hp] at h
      exact ih c h
    · rw [if_neg hp] at h
      simp at h
      subst h
      simpa using hp

theorem dropWhile_eq_self_of_head {p : Char → Bool} {l : List Char} {c : Char}
    (hh : l.head? = some c) (hp : p c = false) : l.dropWhile p = l := by
  cases l with
  | nil => rfl
  | cons a l =>
    simp at hh
    subst hh
    simp [List.dropWhile_cons, hp]

theorem rstrip_prefix_self (s : List Char) : rstrip s <+: s := by
  have h := List.dropWhile_suffix (l := s.reverse) isPySpace
  have := List.reverse_prefix.mpr h
  simpa [rstrip] using this

theorem prefix_head? {l₁ l₂ : List Char} (h : l₁ <+: l₂) (hne : l₁ ≠ []) :
    l₂.head? = l₁.head? := by
  obtain ⟨t, rfl⟩ := h
  cases l₁ with
  | nil => exact absurd rfl hne
  | cons a l => simp

theorem rstrip_eq_nil_iff {s : List Char} : rstrip s = [] ↔ ∀ c ∈ s, isPySpace c := by
  constructor
  · intro h c hc
    have : s.reverse.dropWhile isPySpace = [] := by
      have := congrArg List.reverse h
      simpa [rstrip] using this
    exact List.dropWhile_eq_nil_iff.mp this c (by simpa using hc)
  · intro h
    have : s.reverse.dropWhile isPySpace = [] :=
      List.dropWhile_eq_nil_iff.mpr (fun c hc => h c (by simpa using hc))
    simp [rstrip, this]

theorem lstrip_eq_nil_iff {s : List Char} : lstrip s = [] ↔ ∀ c ∈ s, isPySpace c :=
  List.dropWhile_eq_nil_iff

theorem strip_eq_nil_iff {s : List Char} : strip s = [] ↔ ∀ c ∈ s, isPySpace c := by
  unfold strip
  rw [rstrip_eq_nil_iff]
  constructor
  · intro h c hc
    have hsplit := List.takeWhile_append_dropWhile (p := isPySpace) (l := s)
    have hmem : c ∈ List.takeWhile isPySpace s ++ List.dropWhile isPySpace s := by
      rw [hsplit]; exact hc
    rcases List.mem_append.mp hmem with h1 | h2
    · exact List.mem_takeWhile_imp h1
    · exact h c h2
  · intro h c hc
    exact h c ((List.dropWhile_sublist _).mem hc)

theorem strip_ne_nil_of_witness {s : List Char} {c : Char} (hc : c ∈ s)
    (hp : isPySpace c = false) : strip s ≠ [] := by
  intro h
  have := strip_eq_nil_iff.mp h c hc
  simp [this] at hp

theorem strip_head_not_space {s : List Char} {c : Char}
    (h : (strip s).head? = some c) : isPySpace c = false := by
  have hne : strip s ≠ [] := by
    intro hnil
    rw [hnil] at h
    simp at h
  have hpre : strip s <+: lstrip s := rstrip_prefix_self (lstrip s)
  have hhead : (lstrip s).head? = (strip s).head? := prefix_head? hpre hne
  have : (lstrip s).head? = some c := by rw [hhead, h]
  exact dropWhile_head_not (l := s) c (by simpa [lstrip] using this)

theorem lstrip_strip (s : List Char) : lstrip (strip s) = strip s := by
  cases h : (strip s).head? with
  | none =>
    have : strip s = [] := by
      cases hs : strip s with
      | nil => rfl
      | cons a l => rw [hs] at h; simp at h
    simp [this, lstrip]
  | some c =>
    exact dropWhile_eq_self_of_head h (strip_head_not_space h)

theorem rstrip_rstrip (s : List Char) : rstrip (rstrip s) = rstrip s := by
  unfold rstrip
  rw [List.reverse_reverse]
  congr 1
  cases h : (s.reverse.dropWhile isPySpace).head? with
  | none =>
    cases hl : s.reverse.dropWhile isPySpace with
    | nil => simp [hl]
    | cons a l => rw [hl] at h; simp at h
  | some c =>
    exact dropWhile_eq_self_of_head h (dropWhile_head_not _ c h)

theorem strip_idem (s : List Char) : strip (strip s) = strip s := by
  have h1 : strip (strip s) = rstrip (lstrip (strip s)) := rfl
  rw [h1, lstrip_strip s]
  have h2 : strip s = rstrip (lstrip s) := rfl
  rw [h2]
  exact rstrip_rstrip (lstrip s)

/-! ### Facts about the style-injection regex scan -/

theorem tailMatch_eq_some_iff :
    ∀ (r b : List Char), tailMatch r = some b ↔ (b ≠ [] ∧ r = b ++ [')']) := by
  intro r
  induction r with
  | nil =>
    intro b
    simp only [tailMatch]
    constructor
    · intro h; exact absurd h (by simp)
    · rintro ⟨hb, h⟩
      exact absurd h.symm (by simp [hb])
  | cons c rest ih =>
    intro b
    cases rest with
    | nil =>
      simp only [tailMatch]
      constructor
      · intro h; exact absurd h (by simp)
      · rintro ⟨hb, h⟩
        have := congrArg List.length h
        simp at this
        exact absurd this hb
    | cons d rest2 =>
      rw [show tailMatch (c :: d :: rest2) =
          (match tailMatch (d :: rest2) with
           | some b => some (c :: b)
           | none => if d :: rest2 = [')'] then some [c] else none) from rfl]
      constructor
      · intro h
        cases ht : tailMatch (d :: rest2) with
        | some b2 =>
          rw [ht] at h
          simp at h
          obtain ⟨hb2, hr⟩ := (ih b2).mp ht
          subst h
          exact ⟨by simp, by rw [hr]; simp⟩
        | none =>
          rw [ht] at h
          by_cases hd : d :: rest2 = [')']
          · rw [if_pos hd] at h
            simp at h
            subst h
            exact ⟨by simp, by rw [hd]; rfl⟩
          · rw [if_neg hd] at h
            exact absurd h (by simp)
      · rintro ⟨hb, h⟩
        cases b with
        | nil => exact absurd rfl hb
        | cons x xs =>
          simp only [List.cons_append, List.cons.injEq] at h
          obtain ⟨hx, hrest⟩ := h
          subst hx
          cases hxs : xs with
          | nil =>
            rw [hxs] at hrest
            simp at hrest
            have hnone : tailMatch (d :: rest2) = none := by
              cases ht : tailMatch (d :: rest2) with
              | none => rfl
              | some b2 =>
                obtain ⟨hb2, hr⟩ := (ih b2).mp ht
                rw [hrest.1, hrest.2] at hr
                cases b2 with
                | nil => exact absurd rfl hb2
                | cons z zs =>
                  have := congrArg List.length hr
                  simp at this
            rw [hnone, if_pos (by simp [hrest.1, hrest.2])]
          | cons y ys =>
            have hxs' : xs ≠ [] := by rw [hxs]; simp
            rw [(ih xs).mpr ⟨hxs', hrest⟩]
            simp [hxs]

theorem styleLoop_sound :
    ∀ (rest acc g1 g2 : List Char), styleLoop acc rest = some (g1, g2) →
      ∃ t, t ≠ [] ∧ g1 = acc ++ t ∧ acc ++ rest = g1 ++ (styleLit ++ (g2 ++ [')'])) ∧ g2 ≠ [] := by
  intro rest
  induction rest with
  | nil => intro acc g1 g2 h; simp [styleLoop] at h
  | cons c rest ih =>
    intro acc g1 g2 h
    rw [show styleLoop acc (c :: rest) =
        (if styleLit.isPrefixOf rest then
          match tailMatch (rest.drop styleLit.length) with
          | some g2 => some (acc ++ [c], g2)
          | none => styleLoop (acc ++ [c]) rest
        else styleLoop (acc ++ [c]) rest) from rfl] at h
    by_cases hp : styleLit.isPrefixOf rest
    · rw [if_pos hp] at h
      cases ht : tailMatch (rest.drop styleLit.length) with
      | some g2x =>
        rw [ht] at h
        simp at h
        obtain ⟨h1, h2⟩ := h
        obtain ⟨hg2ne, hdrop⟩ := (tailMatch_eq_some_iff _ _).mp ht
        obtain ⟨tl, htl⟩ := List.isPrefixOf_iff_prefix.mp hp
        have htlv : tl = g2x ++ [')'] := by
          rw [← hdrop, ← htl]
          exact (List.drop_left _ _).symm
        have hrest : rest = styleLit ++ (g2x ++ [')']) := by rw [← htl, htlv]
        refine ⟨[c], by simp, h1.symm, ?_, by rw [← h2]; exact hg2ne⟩
        rw [← h1, ← h2, hrest]
        simp
      | none =>
        rw [ht] at h
        obtain ⟨t, htne, hg1, heq, hg2⟩ := ih (acc ++ [c]) g1 g2 h
        refine ⟨c :: t, by simp, by rw [hg1]; simp, ?_, hg2⟩
        rw [← heq]
        simp
    · rw [if_neg hp] at h
      obtain ⟨t, htne, hg1, heq, hg2⟩ := ih (acc ++ [c]) g1 g2 h
      refine ⟨c :: t, by simp, by rw [hg1]; simp, ?_, hg2⟩
      rw [← heq]
      simp

theorem styleLoop_complete :
    ∀ (a acc b : List Char), a ≠ [] → b ≠ [] →
      (∀ p, p < a.length → 1 ≤ p →
        styleLit.isPrefixOf ((a ++ (styleLit ++ (b ++ [')']))).drop p) = false) →
      styleLoop acc (a ++ (styleLit ++ (b ++ [')']))) = some (acc ++ a, b) := by
  intro a
  induction a with
  | nil => intro acc b ha; exact absurd rfl ha
  | cons c a' ih =>
    intro acc b _ hb hmin
    rw [show (c :: a') ++ (styleLit ++ (b ++ [')'])) =
        c :: (a' ++ (styleLit ++ (b ++ [')']))) from rfl]
    rw [show styleLoop acc (c :: (a' ++ (styleLit ++ (b ++ [')'])))) =
        (if styleLit.isPrefixOf (a' ++ (styleLit ++ (b ++ [')']))) then
          match tailMatch ((a' ++ (styleLit ++ (b ++ [')']))).drop styleLit.length) with
          | some g2 => some (acc ++ [c], g2)
          | none => styleLoop (acc ++ [c]) (a' ++ (styleLit ++ (b ++ [')'])))
        else styleLoop (acc ++ [c]) (a' ++ (styleLit ++ (b ++ [')'])))) from rfl]
    cases ha' : a' with
    | nil =>
      subst ha'
      rw [if_pos (by simp [List.isPrefixOf_iff_prefix])]
      have hdd : ([] ++ (styleLit ++ (b ++ [')']))).drop styleLit.length = b ++ [')'] := by
        rw [List.nil_append]
        exact List.drop_left _ _
      rw [hdd, (tailMatch_eq_some_iff (b ++ [')']) b).mpr ⟨hb, rfl⟩]
    | cons d a'' =>
      subst ha'
      have hnp : styleLit.isPrefixOf ((d :: a'') ++ (styleLit ++ (b ++ [')']))) = false := by
        have := hmin 1 (by simp) (by omega)
        simpa using this
      rw [if_neg (by rw [hnp]; exact Bool.false_ne_true)]
      have hmin' : ∀ p, p < (d :: a'').length → 1 ≤ p →
          styleLit.isPrefixOf (((d :: a'') ++ (styleLit ++ (b ++ [')']))).drop p) = false := by
        intro p hp hp1
        have := hmin (p + 1) (by simp at hp ⊢; omega) (by omega)
        simpa using this
      have := ih (acc ++ [c]) b (by simp) hb hmin'
      rw [this]
      simp

theorem containsSub_append (pat : List Char) (x y : List Char) (hp : pat ≠ []) :
    containsSub pat (x ++ (pat ++ y)) = true := by
  induction x with
  | nil =>
    cases pat with
    | nil => exact absurd rfl hp
    | cons c pat' =>
      rw [List.nil_append]
      rw [show containsSub (c :: pat') ((c :: pat') ++ y) =
          ((c :: pat').isPrefixOf ((c :: pat') ++ y) || containsSub (c :: pat') (pat' ++ y))
          from rfl]
      have : (c :: pat').isPrefixOf ((c :: pat') ++ y) = true :=
        List.isPrefixOf_iff_prefix.mpr (List.prefix_append _ _)
      rw [this]
      simp
  | cons c x' ih =>
    rw [show (c :: x') ++ (pat ++ y) = c :: (x' ++ (pat ++ y)) from rfl]
    rw [show containsSub pat (c :: (x' ++ (pat ++ y))) =
        (pat.isPrefixOf (c :: (x' ++ (pat ++ y))) || containsSub pat (x' ++ (pat ++ y)))
        from rfl]
    rw [ih]
    simp

/-- C2 (amended): when the trimmed selector part contains `:style(`, the
parser takes the selector to be everything up to the FIRST `:style(` that
has at least one character before it (the regex group `(.+?)` is
non-greedy), and the declaration to be everything after that `:style(` up
to the final character of the string, which must be `)` with at least one
character in between; the resulting rule is the trimmed pair, and when no
such decomposition exists at all the line is invalid. -/
theorem styleSplit_first_occurrence :
    (∀ (a b : List Char), a ≠ [] → b ≠ [] →
        (∀ p, p < a.length → 1 ≤ p →
          styleLit.isPrefixOf ((a ++ (styleLit ++ (b ++ [')']))).drop p) = false) →
        selectorRule (a ++ (styleLit ++ (b ++ [')']))) = some (strip a, strip b))
    ∧ (∀ s : List Char, containsSub styleLit s = true →
        (∀ a b : List Char, a ≠ [] → b ≠ [] → s ≠ a ++ (styleLit ++ (b ++ [')']))) →
        selectorRule s = none) := by
  constructor
  · intro a b ha hb hmin
    unfold selectorRule
    rw [if_pos (containsSub_append styleLit a (b ++ [')']) (by decide))]
    have hsl := styleLoop_complete a [] b ha hb hmin
    rw [List.nil_append] at hsl
    rw [hsl]
  · intro s hc hno
    unfold selectorRule
    rw [if_pos hc]
    cases hl : styleLoop [] s with
    | none => rfl
    | some pr =>
      obtain ⟨g1, g2⟩ := pr
      obtain ⟨t, htne, hg1, heq, hg2⟩ := styleLoop_sound s [] g1 g2 hl
      rw [List.nil_append] at heq
      exact absurd heq (hno g1 g2 (by rw [hg1]; simpa using htne) hg2)

/-- Witness for C2 (amended) at the selector part `div:style(color: red)`. -/
theorem styleSplit_first_occurrence_witness :
    selectorRule ("div:style(color: red)".toList) =
      some (strip ("div".toList), strip ("color: red".toList)) := by
  have h := styleSplit_first_occurrence.1 ("div".toList) ("color: red".toList)
    (by decide) (by decide) (by decide)
  have heq : "div".toList ++ (styleLit ++ ("color: red".toList ++ [')'])) =
      "div:style(color: red)".toList := by decide
  rw [← heq]
  exact h

/-- C2 (counterexample): on the line `x##a:style(b):style(c)` the code
splits at the FIRST `:style(`, producing the rule
`("a", "b):style(c")`, not the rule `("a:style(b)", "c")` that the
claimed split at the LAST `:style(` would produce. -/
theorem styleFirst_not_last_cex :
    (parse_filters ["x##a:style(b):style(c)".toList]).domainMap =
      [("x".toList, [("a".toList, "b):style(c".toList)])]
    ∧ ("a".toList, "b):style(c".toList) ≠ ("a:style(b)".toList, "c".toList) := by
  constructor
  · decide
  · decide

/-! ### Parser classification facts -/

theorem classify_blank_iff (l : List Char) :
    isBlankKind (classifyLine l) = ((strip l).isEmpty || ['!'].isPrefixOf (strip l)) := by
  simp only [classifyLine]
  by_cases h1 : strip l = []
  · have h1' : (strip l).isEmpty = true := by rw [h1]; rfl
    rw [if_pos h1, h1']
    rfl
  · have h1' : (strip l).isEmpty = false := by
      cases hsl : strip l with
      | nil => exact absurd hsl h1
      | cons a t => rfl
    rw [if_neg h1]
    by_cases h2 : ['!'].isPrefixOf (strip l) = true
    · rw [if_pos h2, h1', h2]
      rfl
    · have h2' : ['!'].isPrefixOf (strip l) = false := Bool.eq_false_iff.mpr h2
      rw [if_neg h2, h1', h2']
      have : (false || false) = false := rfl
      rw [this]
      split
      · rfl
      · split
        · split
          · rfl
          · split
            · rfl
            · split
              · rfl
              · rfl
        · split
          · rfl
          · rfl

theorem parseFrom_invalid_length :
    ∀ (ls : List (List Char)) (st : ParseResult) (n : Nat),
      (parseFrom st n ls).invalid.length
        = st.invalid.length + ls.countP (fun l => isInvalidKind (classifyLine l)) := by
  intro ls
  induction ls with
  | nil => intro st n; simp [parseFrom]
  | cons l ls ih =>
    intro st n
    rw [show parseFrom st n (l :: ls) = parseFrom (applyLine st n l) (n + 1) ls from rfl]
    rw [ih, List.countP_cons]
    have hstep : (applyLine st n l).invalid.length =
        st.invalid.length + (if isInvalidKind (classifyLine l) then 1 else 0) := by
      cases h : classifyLine l with
      | blank => simp [applyLine, h, isInvalidKind]
      | skip r => simp [applyLine, h, isInvalidKind]
      | invalid r => simp [applyLine, h, isInvalidKind]
      | rule dp r => by_cases hdp : dp = [] <;> simp [applyLine, h, isInvalidKind, hdp]
    rw [hstep]
    omega

theorem parseFrom_skipped_length :
    ∀ (ls : List (List Char)) (st : ParseResult) (n : Nat),
      (parseFrom st n ls).skipped.length
        = st.skipped.length + ls.countP (fun l => isSkipKind (classifyLine l)) := by
  intro ls
  induction ls with
  | nil => intro st n; simp [parseFrom]
  | cons l ls ih =>
    intro st n
    rw [show parseFrom st n (l :: ls) = parseFrom (applyLine st n l) (n + 1) ls from rfl]
    rw [ih, List.countP_cons]
    have hstep : (applyLine st n l).skipped.length =
        st.skipped.length + (if isSkipKind (classifyLine l) then 1 else 0) := by
      cases h : classifyLine l with
      | blank => simp [applyLine, h, isSkipKind]
      | skip r => simp [applyLine, h, isSkipKind]
      | invalid r => simp [applyLine, h, isSkipKind]
      | rule dp r => by_cases hdp : dp = [] <;> simp [applyLine, h, isSkipKind, hdp]
    rw [hstep]
    omega

theorem kind_indicator (l : List Char) :
    (if isRuleKind (classifyLine l) then 1 else 0)
      + (if isInvalidKind (classifyLine l) then 1 else 0)
      + (if isSkipKind (classifyLine l) then 1 else 0)
    = (if (!(strip l).isEmpty && !(['!'].isPrefixOf (strip l))) then 1 else 0) := by
  have hb := classify_blank_iff l
  cases h : classifyLine l with
  | blank =>
    rw [h] at hb
    have hcond : (!(strip l).isEmpty && !(['!'].isPrefixOf (strip l))) = false := by
      rw [← Bool.not_or, ← hb]
      rfl
    rw [hcond]
    rfl
  | skip r =>
    rw [h] at hb
    have hcond : (!(strip l).isEmpty && !(['!'].isPrefixOf (strip l))) = true := by
      rw [← Bool.not_or, ← hb]
      rfl
    rw [hcond]
    rfl
  | invalid r =>
    rw [h] at hb
    have hcond : (!(strip l).isEmpty && !(['!'].isPrefixOf (strip l))) = true := by
      rw [← Bool.not_or, ← hb]
      rfl
    rw [hcond]
    rfl
  | rule dp r =>
    rw [h] at hb
    have hcond : (!(strip l).isEmpty && !(['!'].isPrefixOf (strip l))) = true := by
      rw [← Bool.not_or, ← hb]
      rfl
    rw [hcond]
    rfl

/-- C1: every non-empty, non-comment input line is classified into exactly
one of rule-contributing, invalid or skipped: the number of
rule-contributing lines plus the number of invalid lines plus the number
of skipped lines equals the number of non-empty non-comment lines. -/
theorem parse_partition_count (lines : List (List Char)) :
    lines.countP (fun l => isRuleKind (classifyLine l))
      + (parse_filters lines).invalid.length
      + (parse_filters lines).skipped.length
    = lines.countP (fun l => !(strip l).isEmpty && !(['!'].isPrefixOf (strip l))) := by
  unfold parse_filters
  rw [parseFrom_invalid_length, parseFrom_skipped_length]
  simp only [show (⟨[], [], [], []⟩ : ParseResult).invalid.length = 0 from rfl,
    show (⟨[], [], [], []⟩ : ParseResult).skipped.length = 0 from rfl, Nat.zero_add]
  induction lines with
  | nil => rfl
  | cons l ls ih =>
    rw [List.countP_cons, List.countP_cons, List.countP_cons, List.countP_cons]
    have hk := kind_indicator l
    omega

/-- C9: no input line can abort the scan of the remaining lines: running
the parser over `pre ++ post` is running it over `pre` and then continuing
over `post` from the resulting state, whatever the lines of `pre`
classified as; in particular parsing is total over all lines. -/
theorem parse_no_abort (pre post : List (List Char)) (st : ParseResult) (n : Nat) :
    parseFrom st n (pre ++ post) = parseFrom (parseFrom st n pre) (n + pre.length) post := by
  induction pre generalizing st n with
  | nil => simp [parseFrom]
  | cons l pre ih =>
    rw [show (l :: pre) ++ post = l :: (pre ++ post) from rfl]
    rw [show parseFrom st n (l :: (pre ++ post))
        = parseFrom (applyLine st n l) (n + 1) (pre ++ post) from rfl]
    rw [ih]
    rw [show parseFrom st n (l :: pre) = parseFrom (applyLine st n l) (n + 1) pre from rfl]
    have hlen : n + (l :: pre).length = (n + 1) + pre.length := by
      rw [List.length_cons]
      omega
    rw [hlen]

theorem classify_rule_good {l dp : List Char} {r : List Char × List Char}
    (h : classifyLine l = .rule dp r) : r.1 ≠ [] ∧ strip r.1 = r.1 := by
  simp only [classifyLine] at h
  split at h
  · simp at h
  · split at h
    · simp at h
    · split at h
      · simp at h
      · split at h
        · rename_i pre post hsf
          split at h
          · simp at h
          · rename_i hdollar
            split at h
            · simp at h
            · rename_i hpost
              split at h
              · rename_i r0 hsr
                simp at h
                obtain ⟨hdp, hr⟩ := h
                subst hr
                unfold selectorRule at hsr
                by_cases h6 : containsSub styleLit (strip post) = true
                · rw [if_pos h6] at hsr
                  cases hsl : styleLoop [] (strip post) with
                  | none => rw [hsl] at hsr; simp at hsr
                  | some pr2 =>
                    obtain ⟨g1, g2⟩ := pr2
                    rw [hsl] at hsr
                    simp at hsr
                    obtain ⟨t, htne, hg1, heq, hg2⟩ := styleLoop_sound _ _ _ _ hsl
                    rw [List.nil_append] at hg1 heq
                    subst hg1
                    rw [← hsr]
                    have hne : strip g1 ≠ [] := by
                      cases ht : g1 with
                      | nil => exact absurd ht htne
                      | cons c t' =>
                        have hhead : (strip post).head? = some c := by
                          rw [heq, ht]
                          rfl
                        have hcs : isPySpace c = false :=
                          strip_head_not_space (s := post) hhead
                        exact strip_ne_nil_of_witness (by simp) hcs
                    exact ⟨hne, strip_idem g1⟩
                · rw [if_neg h6] at hsr
                  simp at hsr
                  rw [← hsr]
                  exact ⟨hpost, strip_idem post⟩
              · simp at h
        · split at h
          · simp at h
          · simp at h

theorem appendAt_forall {K V : Type} [DecidableEq K] (P : V → Prop) :
    ∀ (m : List (K × List V)) (k : K) (v : V),
      (∀ e ∈ m, ∀ w ∈ e.2, P w) → P v →
      ∀ e ∈ appendAt m k v, ∀ w ∈ e.2, P w := by
  intro m
  induction m with
  | nil =>
    intro k v hm hv e he w hw
    simp [appendAt] at he
    subst he
    simp at hw
    subst hw
    exact hv
  | cons kv m ih =>
    obtain ⟨a, vs⟩ := kv
    intro k v hm hv e he w hw
    by_cases hak : a = k
    · rw [show appendAt ((a, vs) :: m) k v = (a, vs ++ [v]) :: m from by
        simp [appendAt, hak]] at he
      rcases List.mem_cons.mp he with he1 | he2
      · subst he1
        rcases List.mem_append.mp hw with hw1 | hw2
        · exact hm (a, vs) (by simp) w hw1
        · simp at hw2
          subst hw2
          exact hv
      · exact hm e (by simp [he2]) w hw
    · rw [show appendAt ((a, vs) :: m) k v = (a, vs) :: appendAt m k v from by
        simp [appendAt, hak]] at he
      rcases List.mem_cons.mp he with he1 | he2
      · subst he1
        exact hm (a, vs) (by simp) w hw
      · exact ih k v (fun e2 he2' w2 hw2 => hm e2 (by simp [he2']) w2 hw2) hv e he2 w hw

theorem appendAt_foldl_forall {A K V : Type} [DecidableEq K] (P : V → Prop) (v : V) (g : A → K) :
    ∀ (ds : List A) (m : List (K × List V)),
      (∀ e ∈ m, ∀ w ∈ e.2, P w) → P v →
      ∀ e ∈ ds.foldl (fun m d => appendAt m (g d) v) m, ∀ w ∈ e.2, P w := by
  intro ds
  induction ds with
  | nil => intro m hm hv; exact hm
  | cons d ds ih =>
    intro m hm hv
    exact ih (appendAt m (g d) v) (appendAt_forall P m (g d) v hm hv) hv

theorem parseFrom_good :
    ∀ (ls : List (List Char)) (st : ParseResult) (n : Nat),
      (∀ e ∈ st.domainMap, ∀ w ∈ e.2, w.1 ≠ [] ∧ strip w.1 = w.1) →
      (∀ w ∈ st.globals, w.1 ≠ [] ∧ strip w.1 = w.1) →
      (∀ e ∈ (parseFrom st n ls).domainMap, ∀ w ∈ e.2, w.1 ≠ [] ∧ strip w.1 = w.1)
        ∧ (∀ w ∈ (parseFrom st n ls).globals, w.1 ≠ [] ∧ strip w.1 = w.1) := by
  intro ls
  induction ls with
  | nil => intro st n h1 h2; exact ⟨h1, h2⟩
  | cons l ls ih =>
    intro st n h1 h2
    rw [show parseFrom st n (l :: ls) = parseFrom (applyLine st n l) (n + 1) ls from rfl]
    apply ih
    · cases h : classifyLine l with
      | blank => simpa [applyLine, h] using h1
      | skip s => simpa [applyLine, h] using h1
      | invalid s => simpa [applyLine, h] using h1
      | rule dp r =>
        by_cases hdp : dp = []
        · simpa [applyLine, h, hdp] using h1
        · have hgood := classify_rule_good h
          simp only [applyLine, h]
          rw [if_neg hdp]
          exact appendAt_foldl_forall _ r strip (splitOnChar ',' dp) st.domainMap h1 hgood
    · cases h : classifyLine l with
      | blank => simpa [applyLine, h] using h2
      | skip s => simpa [applyLine, h] using h2
      | invalid s => simpa [applyLine, h] using h2
      | rule dp r =>
        by_cases hdp : dp = []
        · have hgood := classify_rule_good h
          simp only [applyLine, h]
          rw [if_pos hdp]
          intro w hw
          rcases List.mem_append.mp hw with hw1 | hw2
          · exact h2 w hw1
          · simp at hw2
            subst hw2
            exact hgood
        · simpa [applyLine, h, hdp] using h2

/-- C10: every rule placed by the parser into the domain map or the
global list has a non-empty selector with no leading or trailing
whitespace. -/
theorem parse_rule_selectors_stripped (lines : List (List Char)) :
    (∀ e ∈ (parse_filters lines).domainMap, ∀ r ∈ e.2, r.1 ≠ [] ∧ strip r.1 = r.1)
    ∧ (∀ r ∈ (parse_filters lines).globals, r.1 ≠ [] ∧ strip r.1 = r.1) :=
  parseFrom_good lines ⟨[], [], [], []⟩ 1 (by simp) (by simp)

/-- Witness for C10 on the single line `x##.ad`. -/
theorem parse_rule_selectors_stripped_witness :
    (".ad".toList, dnDeclC).1 ≠ [] ∧
      strip (".ad".toList, dnDeclC).1 = (".ad".toList, dnDeclC).1 :=
  (parse_rule_selectors_stripped ["x##.ad".toList]).1
    ("x".toList, [(".ad".toList, dnDeclC)]) (by decide) (".ad".toList, dnDeclC) (by decide)

/-! ### Facts about the filename sanitizer -/

theorem removeAll_of_no_occurrence (pat : List Char) (hp : pat ≠ []) :
    ∀ s : List Char, (∀ p, p < s.length → pat.isPrefixOf (s.drop p) = false) →
      removeAll pat s = s := by
  intro s
  induction s with
  | nil => intro _; rw [removeAll]
  | cons c rest ih =>
    intro hno
    rw [removeAll]
    have h0 : pat.isPrefixOf (c :: rest) = false := by
      have := hno 0 (by simp)
      simpa using this
    rw [dif_neg (by simp [h0])]
    have hshift : ∀ p, p < rest.length → pat.isPrefixOf (rest.drop p) = false := by
      intro p hpp
      have := hno (p + 1) (by simp; omega)
      simpa using this
    rw [ih hshift]

theorem removeAll_cons_occurrence (pat : List Char) (hp : pat ≠ []) :
    ∀ (x y : List Char),
      (∀ p, p < x.length → pat.isPrefixOf ((x ++ (pat ++ y)).drop p) = false) →
      removeAll pat (x ++ (pat ++ y)) = x ++ removeAll pat y := by
  intro x
  induction x with
  | nil =>
    intro y _
    rw [List.nil_append, List.nil_append]
    cases hpat : pat with
    | nil => exact absurd hpat hp
    | cons c pat' =>
      rw [show (c :: pat') ++ y = c :: (pat' ++ y) from rfl]
      rw [removeAll]
      rw [dif_pos ⟨by simp, List.isPrefixOf_iff_prefix.mpr ⟨y, by simp⟩⟩]
      have hd : (c :: (pat' ++ y)).drop (c :: pat').length = y := by
        rw [List.length_cons, List.drop_succ_cons]
        exact List.drop_left _ _
      rw [hd]
  | cons c x' ih =>
    intro y hno
    rw [show (c :: x') ++ (pat ++ y) = c :: (x' ++ (pat ++ y)) from rfl]
    rw [removeAll]
    have h0 : pat.isPrefixOf (c :: (x' ++ (pat ++ y))) = false := by
      have := hno 0 (by simp)
      simpa using this
    rw [dif_neg (by simp [h0])]
    have hshift : ∀ p, p < x'.length →
        pat.isPrefixOf ((x' ++ (pat ++ y)).drop p) = false := by
      intro p hpp
      have := hno (p + 1) (by simp; omega)
      simpa using this
    rw [ih y hshift]
    rfl

/-- C5 (amended): sanitize_filename removes EVERY non-overlapping
occurrence of each of the substrings `www.`, `https://`, `http://`
(scanning left to right, in that order of substrings, without rescanning
text already emitted), then keeps only letters, digits, spaces, dots,
underscores and hyphens, then trims trailing whitespace. The second and
third conjuncts characterize the `replace`-all semantics: a string
without an occurrence is unchanged, and an occurrence is excised with
scanning continuing after it. -/
theorem sanitize_removes_all_occurrences :
    (∀ s : List Char, sanitize_filename s
        = rstrip ((removeAll httpPat (removeAll httpsPat (removeAll wwwPat s))).filter keepChar))
    ∧ (∀ (pat s : List Char), pat ≠ [] →
        (∀ p, p < s.length → pat.isPrefixOf (s.drop p) = false) →
        removeAll pat s = s)
    ∧ (∀ (pat x y : List Char), pat ≠ [] →
        (∀ p, p < x.length → pat.isPrefixOf ((x ++ (pat ++ y)).drop p) = false) →
        removeAll pat (x ++ (pat ++ y)) = x ++ removeAll pat y) :=
  ⟨fun _ => rfl,
   fun pat s hp hno => removeAll_of_no_occurrence pat hp s hno,
   fun pat x y hp hno => removeAll_cons_occurrence pat hp x y hno⟩

/-- Witness for C5 (amended): removing the leading `www.` of `www.abc`. -/
theorem sanitize_removes_all_occurrences_witness :
    removeAll wwwPat ([] ++ (wwwPat ++ "abc".toList)) = [] ++ removeAll wwwPat ("abc".toList) :=
  sanitize_removes_all_occurrences.2.2 wwwPat [] ("abc".toList) (by decide) (by decide)

/-- C5 (counterexample): on `www.www.example.com` the code removes ALL
occurrences of `www.` (Python str.replace), yielding `example.com`,
whereas removing only the first occurrence of each substring, as the
claim states, would yield `www.example.com`. -/
theorem sanitize_first_occurrence_cex :
    sanitize_filename ("www.www.example.com".toList) = "example.com".toList
    ∧ sanitizeClaimC5 ("www.www.example.com".toList) = "www.example.com".toList
    ∧ "example.com".toList ≠ "www.example.com".toList := by
  refine ⟨?_, by decide, by decide⟩
  show rstrip ((removeAll httpPat (removeAll httpsPat (removeAll wwwPat
      ("www.www.example.com".toList)))).filter keepChar) = "example.com".toList
  have hstep1 := removeAll_cons_occurrence wwwPat (by decide) [] ("www.example.com".toList)
    (by decide)
  have hstep2 := removeAll_cons_occurrence wwwPat (by decide) [] ("example.com".toList)
    (by decide)
  simp only [List.nil_append] at hstep1 hstep2
  have hnone : removeAll wwwPat ("example.com".toList) = "example.com".toList :=
    removeAll_of_no_occurrence wwwPat (by decide) _ (by decide)
  have hc1 : "www.www.example.com".toList = wwwPat ++ "www.example.com".toList := by decide
  have hc2 : "www.example.com".toList = wwwPat ++ "example.com".toList := by decide
  rw [hc1, hstep1, hc2, hstep2, hnone]
  have hs : removeAll httpsPat ("example.com".toList) = "example.com".toList :=
    removeAll_of_no_occurrence httpsPat (by decide) _ (by decide)
  have hh : removeAll httpPat ("example.com".toList) = "example.com".toList :=
    removeAll_of_no_occurrence httpPat (by decide) _ (by decide)
  rw [hs, hh]
  decide

/-! ### Facts about declaration grouping -/

theorem appendAt_keys {K V : Type} [DecidableEq K] :
    ∀ (m : List (K × List V)) (k : K) (v : V),
      (appendAt m k v).map Prod.fst
        = if k ∈ m.map Prod.fst then m.map Prod.fst else m.map Prod.fst ++ [k] := by
  intro m
  induction m with
  | nil => intro k v; simp [appendAt]
  | cons kv m ih =>
    obtain ⟨a, vs⟩ := kv
    intro k v
    by_cases hak : a = k
    · subst hak
      simp [appendAt]
    · rw [show appendAt ((a, vs) :: m) k v = (a, vs) :: appendAt m k v from by
        simp [appendAt, hak]]
      by_cases hk : k ∈ m.map Prod.fst
      · rw [if_pos (by simp [hk])]
        simp [ih, hk]
      · rw [if_neg (by simp [hk, Ne.symm hak])]
        simp [ih, hk]

theorem appendAt_keys_nodup {K V : Type} [DecidableEq K]
    (m : List (K × List V)) (k : K) (v : V) (hm : (m.map Prod.fst).Nodup) :
    ((appendAt m k v).map Prod.fst).Nodup := by
  rw [appendAt_keys]
  by_cases hk : k ∈ m.map Prod.fst
  · rw [if_pos hk]; exact hm
  · rw [if_neg hk]
    simp [List.nodup_append, hm, hk]

theorem lookupG_appendAt {K V : Type} [DecidableEq K] :
    ∀ (m : List (K × List V)) (k : K) (v : V) (q : K),
      lookupG (appendAt m k v) q
        = if q = k then lookupG m k ++ [v] else lookupG m q := by
  intro m
  induction m with
  | nil =>
    intro k v q
    by_cases hq : q = k
    · subst hq; simp [appendAt, lookupG]
    · simp [appendAt, lookupG, hq, Ne.symm hq]
  | cons kv m ih =>
    obtain ⟨a, vs⟩ := kv
    intro k v q
    by_cases hak : a = k
    · subst hak
      rw [show appendAt ((a, vs) :: m) a v = (a, vs ++ [v]) :: m from by simp [appendAt]]
      by_cases hq : q = a
      · subst hq; simp [lookupG]
      · simp [lookupG, hq, Ne.symm hq]
    · rw [show appendAt ((a, vs) :: m) k v = (a, vs) :: appendAt m k v from by
        simp [appendAt, hak]]
      by_cases hq : q = k
      · subst hq
        rw [if_pos rfl]
        rw [show lookupG ((a, vs) :: appendAt m q v) q
            = if a = q then vs else lookupG (appendAt m q v) q from rfl]
        rw [if_neg hak, ih q v q, if_pos rfl]
        rw [show lookupG ((a, vs) :: m) q = if a = q then vs else lookupG m q from rfl]
        rw [if_neg hak]
      · rw [if_neg hq]
        rw [show lookupG ((a, vs) :: appendAt m k v) q
            = if a = q then vs else lookupG (appendAt m k v) q from rfl]
        rw [show lookupG ((a, vs) :: m) q = if a = q then vs else lookupG m q from rfl]
        by_cases haq : a = q
        · rw [if_pos haq, if_pos haq]
        · rw [if_neg haq, if_neg haq, ih k v q, if_neg hq]

theorem mem_eq_lookupG {K V : Type} [DecidableEq K] :
    ∀ (m : List (K × List V)), (m.map Prod.fst).Nodup →
      ∀ g ∈ m, g.2 = lookupG m g.1 := by
  intro m
  induction m with
  | nil => intro _ g hg; simp at hg
  | cons kv m ih =>
    obtain ⟨a, vs⟩ := kv
    intro hnd g hg
    rw [List.map_cons, List.nodup_cons] at hnd
    obtain ⟨ha, hmn⟩ := hnd
    rcases List.mem_cons.mp hg with hg1 | hg2
    · subst hg1
      simp [lookupG]
    · have hfst : g.1 ∈ m.map Prod.fst := List.mem_map.mpr ⟨g, hg2, rfl⟩
      have hne : a ≠ g.1 := fun hc => ha (hc ▸ hfst)
      rw [show lookupG ((a, vs) :: m) g.1 = if a = g.1 then vs else lookupG m g.1 from rfl]
      rw [if_neg hne]
      exact ih hmn g hg2

theorem cssGroups_keys_aux :
    ∀ (rules : List (String × String)) (m : List (String × List String)),
      ((rules.foldl (fun m r => appendAt m r.2 r.1) m).map Prod.fst)
        = (rules.map Prod.snd).foldl (fun acc x => if x ∈ acc then acc else acc ++ [x])
            (m.map Prod.fst) := by
  intro rules
  induction rules with
  | nil => intro m; rfl
  | cons r rules ih =>
    intro m
    rw [List.foldl_cons, List.map_cons, List.foldl_cons, ih, appendAt_keys]

theorem cssGroups_keys (rules : List (String × String)) :
    (cssGroups rules).map Prod.fst = dedupeFirst (rules.map Prod.snd) := by
  unfold cssGroups dedupeFirst
  rw [cssGroups_keys_aux]
  rfl

theorem dedupeFirst_nodup_aux {α : Type} [DecidableEq α] :
    ∀ (xs : List α) (acc : List α), acc.Nodup →
      (xs.foldl (fun acc x => if x ∈ acc then acc else acc ++ [x]) acc).Nodup := by
  intro xs
  induction xs with
  | nil => intro acc h; exact h
  | cons x xs ih =>
    intro acc h
    rw [List.foldl_cons]
    apply ih
    by_cases hx : x ∈ acc
    · rw [if_pos hx]; exact h
    · rw [if_neg hx]
      simp [List.nodup_append, h, hx]

theorem dedupeFirst_nodup {α : Type} [DecidableEq α] (xs : List α) : (dedupeFirst xs).Nodup :=
  dedupeFirst_nodup_aux xs [] (by simp)

theorem dedupeFirst_mem_aux {α : Type} [DecidableEq α] :
    ∀ (xs : List α) (acc : List α) (y : α),
      (y ∈ xs.foldl (fun acc x => if x ∈ acc then acc else acc ++ [x]) acc)
        ↔ (y ∈ acc ∨ y ∈ xs) := by
  intro xs
  induction xs with
  | nil => intro acc y; simp
  | cons x xs ih =>
    intro acc y
    rw [List.foldl_cons, ih]
    by_cases hx : x ∈ acc
    · rw [if_pos hx]
      constructor
      · rintro (h | h)
        · exact Or.inl h
        · exact Or.inr (by simp [h])
      · rintro (h | h)
        · exact Or.inl h
        · rcases List.mem_cons.mp h with h1 | h2
          · subst h1; exact Or.inl hx
          · exact Or.inr h2
    · rw [if_neg hx]
      constructor
      · rintro (h | h)
        · rcases List.mem_append.mp h with h1 | h2
          · exact Or.inl h1
          · simp at h2
            subst h2
            exact Or.inr (by simp)
        · exact Or.inr (by simp [h])
      · rintro (h | h)
        · exact Or.inl (List.mem_append.mpr (Or.inl h))
        · rcases List.mem_cons.mp h with h1 | h2
          · subst h1
            exact Or.inl (List.mem_append.mpr (Or.inr (by simp)))
          · exact Or.inr h2

theorem dedupeFirst_mem {α : Type} [DecidableEq α] (xs : List α) (y : α) :
    y ∈ dedupeFirst xs ↔ y ∈ xs := by
  unfold dedupeFirst
  rw [dedupeFirst_mem_aux]
  simp

theorem dedupeFirst_eq_self_aux {α : Type} [DecidableEq α] :
    ∀ (xs acc : List α), (acc ++ xs).Nodup →
      xs.foldl (fun acc x => if x ∈ acc then acc else acc ++ [x]) acc = acc ++ xs := by
  intro xs
  induction xs with
  | nil => intro acc h; simp
  | cons x xs ih =>
    intro acc h
    rw [List.foldl_cons]
    have hx : x ∉ acc := by
      intro hc
      exact (List.nodup_append.mp h).2.2 hc (by simp)
    rw [if_neg hx, ih (acc ++ [x]) (by simpa using h)]
    simp

theorem cssGroups_lookup_aux :
    ∀ (rules : List (String × String)) (m : List (String × List String)) (d : String),
      lookupG (rules.foldl (fun m r => appendAt m r.2 r.1) m) d
        = lookupG m d ++ (rules.filter (fun r => r.2 == d)).map Prod.fst := by
  intro rules
  induction rules with
  | nil => intro m d; simp
  | cons r rules ih =>
    intro m d
    rw [List.foldl_cons, ih, lookupG_appendAt]
    by_cases hd : d = r.2
    · subst hd
      simp [List.filter_cons]
    · rw [if_neg hd]
      have hbe : (r.2 == d) = false := by
        simp
        exact Ne.symm hd
      simp [List.filter_cons, hbe]

theorem cssGroups_content (rules : List (String × String)) :
    ∀ g ∈ cssGroups rules, g.2 = (rules.filter (fun r => r.2 == g.1)).map Prod.fst := by
  intro g hg
  have hnd : ((cssGroups rules).map Prod.fst).Nodup := by
    rw [cssGroups_keys]
    exact dedupeFirst_nodup _
  have h1 := mem_eq_lookupG (cssGroups rules) hnd g hg
  rw [h1]
  unfold cssGroups
  rw [cssGroups_lookup_aux]
  simp [lookupG]

theorem countOcc_cons (sel a : String) (vs : List String) (m : List (String × List String)) :
    countOcc sel ((a, vs) :: m) = vs.count sel + countOcc sel m := by
  simp [countOcc]

theorem countOcc_appendAt (m : List (String × List String)) (k : String) (v sel : String) :
    countOcc sel (appendAt m k v) = countOcc sel m + (if v == sel then 1 else 0) := by
  induction m with
  | nil => simp [appendAt, countOcc, List.count_singleton]
  | cons kv m ih =>
    obtain ⟨a, vs⟩ := kv
    by_cases hak : a = k
    · subst hak
      rw [show appendAt ((a, vs) :: m) a v = (a, vs ++ [v]) :: m from by simp [appendAt]]
      rw [countOcc_cons, countOcc_cons, List.count_append, List.count_singleton]
      omega
    · rw [show appendAt ((a, vs) :: m) k v = (a, vs) :: appendAt m k v from by
        simp [appendAt, hak]]
      rw [countOcc_cons, countOcc_cons, ih]
      omega

theorem countOcc_foldl :
    ∀ (rules : List (String × String)) (m : List (String × List String)) (sel : String),
      countOcc sel (rules.foldl (fun m r => appendAt m r.2 r.1) m)
        = countOcc sel m + (rules.map Prod.fst).count sel := by
  intro rules
  induction rules with
  | nil => intro m sel; simp
  | cons r rules ih =>
    intro m sel
    rw [List.foldl_cons, ih, countOcc_appendAt, List.map_cons, List.count_cons]
    omega

theorem fst_nodup_inj :
    ∀ {rules : List (String × String)}, (rules.map Prod.fst).Nodup →
      ∀ {x d1 d2 : String}, (x, d1) ∈ rules → (x, d2) ∈ rules → d1 = d2 := by
  intro rules
  induction rules with
  | nil => intro _ x d1 d2 h1; simp at h1
  | cons r rules ih =>
    intro h x d1 d2 h1 h2
    rw [List.map_cons, List.nodup_cons] at h
    obtain ⟨hr, hn⟩ := h
    rcases List.mem_cons.mp h1 with e1 | m1 <;> rcases List.mem_cons.mp h2 with e2 | m2
    · have := e1.trans e2.symm
      simpa using this
    · exfalso
      apply hr
      rw [← e1]
      exact List.mem_map.mpr ⟨(x, d2), m2, rfl⟩
    · exfalso
      apply hr
      rw [← e2]
      exact List.mem_map.mpr ⟨(x, d1), m1, rfl⟩
    · exact ih hn m1 m2

/-- C3 (amended): for every rule list in which no two rules share the same
selector text, every selector of the list appears exactly once across the
CSS declaration groups of the generated output, and every group containing
it has the declaration of that selector as its grouping key. -/
theorem usercss_selector_once_of_nodup (rules : List (String × String)) (sel decl : String)
    (hnd : (rules.map Prod.fst).Nodup) (hmem : (sel, decl) ∈ rules) :
    countOcc sel (cssGroups rules) = 1
    ∧ ∀ g ∈ cssGroups rules, sel ∈ g.2 → g.1 = decl := by
  constructor
  · unfold cssGroups
    rw [countOcc_foldl]
    have hz : countOcc sel ([] : List (String × List String)) = 0 := rfl
    rw [hz, Nat.zero_add]
    exact List.count_eq_one_of_mem hnd (List.mem_map.mpr ⟨(sel, decl), hmem, rfl⟩)
  · intro g hg hsel
    have hcontent := cssGroups_content rules g hg
    rw [hcontent] at hsel
    obtain ⟨r, hrf, hr1⟩ := List.mem_map.mp hsel
    have hrmem : r ∈ rules := List.mem_of_mem_filter hrf
    have hrd : r.2 = g.1 := by
      have := List.of_mem_filter hrf
      simpa using this
    obtain ⟨rf, rs⟩ := r
    simp at hr1
    subst hr1
    have := fst_nodup_inj hnd hmem hrmem
    rw [this]
    exact hrd.symm

/-- Witness for C3 (amended) with rules `[("a", "x"), ("b", "x")]` and
selector `a`. -/
theorem usercss_selector_once_of_nodup_witness :
    countOcc "a" (cssGroups [("a", "x"), ("b", "x")]) = 1 :=
  (usercss_selector_once_of_nodup [("a", "x"), ("b", "x")] "a" "x"
    (by decide) (by decide)).1

/-- C3 (counterexample): with the rule list `[("a", "x"), ("a", "y")]` the
selector `a` appears in TWO distinct CSS blocks of the generated output
(one per declaration), so it does not appear in exactly one block. -/
theorem usercss_selector_once_cex :
    cssGroups [("a", "x"), ("a", "y")] = [("x", ["a"]), ("y", ["a"])]
    ∧ countOcc "a" (cssGroups [("a", "x"), ("a", "y")]) = 2 :=
  ⟨by decide, by decide⟩

/-- C4: generate_usercss emits the fixed header followed by the body; the
body groups rules by identical declaration text in first-seen group order
(the group keys are the distinct declarations in first-occurrence order,
and each group collects, in input order, exactly the selectors of the
rules carrying that declaration); each group is rendered with its
selectors joined by comma-newline-four-spaces and its declaration line
terminated by a semicolon, blocks joined by blank lines; when `is_global`
is false the blocks are wrapped in the `@-moz-document domain("name")`
conditional, and when true they are emitted unwrapped. -/
theorem generate_usercss_spec (name : String) (rules : List (String × String)) (g : Bool) :
    generate_usercss name rules g
      = usercssHeader name ++
          (if g then renderBlocks (cssGroups rules)
           else mozWrap name (renderBlocks (cssGroups rules)))
    ∧ (cssGroups rules).map Prod.fst = dedupeFirst (rules.map Prod.snd)
    ∧ ∀ grp ∈ cssGroups rules,
        grp.2 = (rules.filter (fun r => r.2 == grp.1)).map Prod.fst :=
  ⟨rfl, cssGroups_keys rules, cssGroups_content rules⟩

/-- Witness for C4 at name `d` and rules `[("a", "x")]`. -/
theorem generate_usercss_spec_witness :
    (cssGroups [("a", "x")]).map Prod.fst = dedupeFirst ([("a", "x")].map Prod.snd) :=
  (generate_usercss_spec "d" [("a", "x")] false).2.1

/-! ### Facts about deduplication and the Stylus export -/

theorem dedupe_rules_sorted (rules : List (String × String)) :
    List.Sorted ruleLe (dedupe_rules rules) :=
  List.sorted_insertionSort ruleLe (dedupeFirst rules)

theorem dedupe_rules_mem (rules : List (String × String)) (r : String × String) :
    r ∈ dedupe_rules rules ↔ r ∈ rules := by
  unfold dedupe_rules
  rw [(List.perm_insertionSort ruleLe (dedupeFirst rules)).mem_iff]
  exact dedupeFirst_mem rules r

theorem dedupe_rules_nodup (rules : List (String × String)) : (dedupe_rules rules).Nodup := by
  unfold dedupe_rules
  exact ((List.perm_insertionSort ruleLe (dedupeFirst rules)).nodup_iff).mpr
    (dedupeFirst_nodup rules)

/-- C6: dedupe_rules removes every rule exactly equal to an earlier one
(the result has no duplicate pairs yet keeps exactly the set of rules of
the input) and returns the remaining rules sorted by the two-key
comparator `ruleLe`: rules with declaration `display: none !important`
before all others, and within each group non-decreasing selector text. -/
theorem dedupe_rules_spec (rules : List (String × String)) :
    (∀ r, r ∈ dedupe_rules rules ↔ r ∈ rules)
    ∧ (dedupe_rules rules).Nodup
    ∧ (dedupe_rules rules).Pairwise ruleLe :=
  ⟨fun r => dedupe_rules_mem rules r, dedupe_rules_nodup rules, dedupe_rules_sorted rules⟩

/-- C7: dedupe_rules is idempotent, its output has no duplicate pairs, and
every output rule occurs in the input. -/
theorem dedupe_rules_idempotent (rules : List (String × String)) :
    dedupe_rules (dedupe_rules rules) = dedupe_rules rules
    ∧ (dedupe_rules rules).Nodup
    ∧ (∀ r ∈ dedupe_rules rules, r ∈ rules) := by
  refine ⟨?_, dedupe_rules_nodup rules, fun r hr => (dedupe_rules_mem rules r).mp hr⟩
  have hnd := dedupe_rules_nodup rules
  have hsorted := dedupe_rules_sorted rules
  show List.insertionSort ruleLe (dedupeFirst (dedupe_rules rules)) = dedupe_rules rules
  have hdf : dedupeFirst (dedupe_rules rules) = dedupe_rules rules := by
    unfold dedupeFirst
    have := dedupeFirst_eq_self_aux (dedupe_rules rules) [] (by simpa using hnd)
    simpa using this
  rw [hdf]
  exact hsorted.insertionSort_eq

/-- Witness for C7: the single rule survives dedupe and is in the input. -/
theorem dedupe_rules_idempotent_witness :
    ("a", "x") ∈ ([("a", "x")] : List (String × String)) :=
  (dedupe_rules_idempotent [("a", "x")]).2.2 ("a", "x")
    ((dedupe_rules_mem [("a", "x")] ("a", "x")).mpr (by simp))

theorem enumFromN_length {α : Type} : ∀ (n : Nat) (xs : List α),
    (enumFromN n xs).length = xs.length := by
  intro n xs
  induction xs generalizing n with
  | nil => rfl
  | cons x xs ih => simp [enumFromN, ih]

theorem enumFromN_map_snd {α β : Type} (f : α → β) : ∀ (n : Nat) (xs : List α),
    (enumFromN n xs).map (fun p => f p.2) = xs.map f := by
  intro n xs
  induction xs generalizing n with
  | nil => rfl
  | cons x xs ih => simp [enumFromN, ih]

/-- C8: the Stylus JSON export starts with the fixed settings object,
contains exactly `|domainRules| + (1 if globalRules non-empty else 0)`
style entries, lists the domain entries in domain-map iteration order,
and when global rules exist ends with an entry with the fixed global
name, an id offset past all domain entries, and no domains restriction
on its section. -/
theorem generate_stylus_json_structure (now : Nat) (uidGen : Nat → String)
    (dm : List (String × List (String × String))) (gs : List (String × String))
    (hne : dm ≠ [] ∨ gs ≠ []) :
    (generate_stylus_json now uidGen dm gs).head? = some (StylusItem.settings settingsObj)
    ∧ (generate_stylus_json now uidGen dm gs).countP isStyleItem
        = dm.length + (if gs.isEmpty then 0 else 1)
    ∧ (((generate_stylus_json now uidGen dm gs).drop 1).take dm.length).map itemName
        = dm.map (fun d => some d.1)
    ∧ (gs ≠ [] → ∃ e : StyleEntry,
        (generate_stylus_json now uidGen dm gs).getLast? = some (StylusItem.style e)
        ∧ e.name = "Global Rules - uBlock Converted"
        ∧ e.id = now % 1000000 + dm.length
        ∧ ∀ sec ∈ e.sections, sec.domains = none) := by
  refine ⟨rfl, ?_, ?_, ?_⟩
  · simp only [generate_stylus_json]
    rw [List.countP_cons_of_neg _ _ (by simp [isStyleItem])]
    rw [List.countP_append, List.countP_map]
    have hdom : ((enumFromN 0 dm).countP
        (isStyleItem ∘ fun p => StylusItem.style (create_stylus_style_entry now (uidGen p.1)
          p.2.1 (dedupe_rules p.2.2)
          (some (if p.2.1.startsWith "www." then [p.2.1] else [p.2.1, "www." ++ p.2.1]))
          (now % 1000000 + p.1) false)))
        = (enumFromN 0 dm).length :=
      List.countP_eq_length.mpr (fun a _ => rfl)
    rw [hdom, enumFromN_length]
    by_cases hgs : gs.isEmpty
    · rw [if_pos hgs, if_pos hgs]
      rfl
    · rw [if_neg hgs, if_neg hgs]
      rfl
  · simp only [generate_stylus_json]
    rw [List.drop_one, List.tail_cons]
    rw [List.take_left' (by rw [List.length_map, enumFromN_length])]
    rw [List.map_map]
    exact enumFromN_map_snd (fun d => some d.1) 0 dm
  · intro hgs
    have hgs' : gs.isEmpty = false := by
      cases gs with
      | nil => exact absurd rfl hgs
      | cons a l => rfl
    refine ⟨create_stylus_style_entry now (uidGen dm.length)
      "Global Rules - uBlock Converted" (dedupe_rules gs) none
      (now % 1000000 + dm.length) true, ?_, rfl, rfl, ?_⟩
    · simp only [generate_stylus_json, hgs']
      rw [if_neg (by simp)]
      rw [show StylusItem.settings settingsObj ::
          ((enumFromN 0 dm).map (fun p => StylusItem.style (create_stylus_style_entry now
            (uidGen p.1) p.2.1 (dedupe_rules p.2.2)
            (some (if p.2.1.startsWith "www." then [p.2.1] else [p.2.1, "www." ++ p.2.1]))
            (now % 1000000 + p.1) false))
          ++ [StylusItem.style (create_stylus_style_entry now (uidGen dm.length)
            "Global Rules - uBlock Converted" (dedupe_rules gs) none
            (now % 1000000 + dm.length) true)])
          = (StylusItem.settings settingsObj ::
          (enumFromN 0 dm).map (fun p => StylusItem.style (create_stylus_style_entry now
            (uidGen p.1) p.2.1 (dedupe_rules p.2.2)
            (some (if p.2.1.startsWith "www." then [p.2.1] else [p.2.1, "www." ++ p.2.1]))
            (now % 1000000 + p.1) false)))
          ++ [StylusItem.style (create_stylus_style_entry now (uidGen dm.length)
            "Global Rules - uBlock Converted" (dedupe_rules gs) none
            (now % 1000000 + dm.length) true)] from by simp]
      exact List.getLast?_concat _
    · intro sec hsec
      simp only [create_stylus_style_entry, List.mem_singleton] at hsec
      subst hsec
      rfl

/-- Witness for C8 with one domain entry and no global rules. -/
theorem generate_stylus_json_structure_witness :
    (generate_stylus_json 0 (fun _ => "u") [("d", [("a", "x")])] []).head?
      = some (StylusItem.settings settingsObj) :=
  (generate_stylus_json_structure 0 (fun _ => "u") [("d", [("a", "x")])] []
    (Or.inl (by simp))).1
